import Mathlib

/-!
Verification of the advanced-ichimoku-cloud indicator kernels.

The Rust source operates on slices of IEEE-754 doubles in which NaN is the
"undefined" sentinel.  We embed a double as `Option ℚ`: `none` models NaN and
`some q` models a finite numeric value, with exact rational arithmetic standing
in for f64 arithmetic (an overflow-free idealization: the kernels only add,
subtract, multiply and divide by positive constants, operations under which a
NaN result arises exactly from a NaN operand).  Comparisons mirror IEEE
semantics: any comparison involving NaN is false.
-/

/-- A modelled f64 value: `none` is NaN, `some q` a finite value. -/
abbrev F := Option ℚ

/-- f64 addition: NaN-propagating. -/
def fadd : F → F → F
  | some a, some b => some (a + b)
  | _, _ => none

/-- f64 subtraction: NaN-propagating. -/
def fsub : F → F → F
  | some a, some b => some (a - b)
  | _, _ => none

/-- f64 multiplication: NaN-propagating. -/
def fmul : F → F → F
  | some a, some b => some (a * b)
  | _, _ => none

/-- f64 division: NaN-propagating; the kernels only divide by positive
constants, so the zero-denominator guard is never reached. -/
def fdiv : F → F → F
  | some a, some b => if b = 0 then none else some (a / b)
  | _, _ => none

/-- f64 absolute value: NaN-propagating. -/
def fabs : F → F
  | some a => some |a|
  | none => none

/-- f64 strict greater-than: false whenever an operand is NaN. -/
def fgt : F → F → Bool
  | some a, some b => decide (b < a)
  | _, _ => false

/-- f64 strict less-than: false whenever an operand is NaN. -/
def flt : F → F → Bool
  | some a, some b => decide (a < b)
  | _, _ => false

/-- f64 greater-or-equal: false whenever an operand is NaN. -/
def fge : F → F → Bool
  | some a, some b => decide (b ≤ a)
  | _, _ => false

/-- Embedding of `wma_inner` (src/hull.rs): linear-weight moving average.
Most recent sample has weight `period`, oldest weight 1; the denominator is
`period * (period + 1) / 2`; positions `0..period-1` are NaN; a series shorter
than the period (or period 0) yields all NaN. -/
def wma_inner (prices : List F) (period : ℕ) : List F :=
  let n := prices.length
  if n < period ∨ period = 0 then List.replicate n none
  else
    (List.range n).map (fun i =>
      if i + 1 < period then none
      else
        let weighted_sum := (List.range period).foldl
          (fun acc j => fadd acc (fmul (some ((period - j : ℕ) : ℚ)) (prices.getD (i - j) none)))
          (some 0)
        fdiv weighted_sum (some (((period * (period + 1) : ℕ) : ℚ) / 2)))

/-- Embedding of `hullma_inner` (src/hull.rs): the four-stage Hull MA.
`(period as f64).sqrt() as usize` is modelled by `Nat.sqrt`, the floor of the
real square root, which is what the double-precision computation produces for
every input the slice lengths can realize. -/
def hullma_inner (prices : List F) (period : ℕ) : List F :=
  let n := prices.length
  if n < period ∨ period = 0 then List.replicate n none
  else
    let half_period := max (period / 2) 2
    let wma_half := wma_inner prices half_period
    let wma_full := wma_inner prices period
    let raw_hma := (List.range n).map (fun i =>
      if (wma_half.getD i none).isNone ∨ (wma_full.getD i none).isNone then none
      else fsub (fmul (some 2) (wma_half.getD i none)) (wma_full.getD i none))
    let sqrt_period := max (Nat.sqrt period) 2
    wma_inner raw_hma sqrt_period

/-- The EMA recurrence of `ema` (src/indicators.rs), written as the structural
recursion the sequential loop computes: `result[0] = data[0]`,
`result[i] = alpha*data[i] + (1-alpha)*result[i-1]`. -/
def emaAux (data : List F) (alpha : ℚ) : ℕ → F
  | 0 => data.getD 0 none
  | i + 1 => fadd (fmul (some alpha) (data.getD (i + 1) none))
      (fmul (some (1 - alpha)) (emaAux data alpha i))

/-- Embedding of `ema` (src/indicators.rs): `alpha = 2/(period+1)`, seeded from
`data[0]`; empty input or period 0 returns the untouched all-zero buffer. -/
def ema (data : List F) (period : ℕ) : List F :=
  let n := data.length
  if n = 0 ∨ period = 0 then List.replicate n (some 0)
  else (List.range n).map (emaAux data (2 / ((period : ℚ) + 1)))

/-- The true-range series computed inside `atr` (src/indicators.rs):
`tr[0] = high[0]-low[0]`; for i ≥ 1 the three-way comparison picks the bar
range, high-vs-prev-close, or low-vs-prev-close, in that tie-break order. -/
def tr_list (high low close : List F) : List F :=
  (List.range high.length).map (fun i =>
    match i with
    | 0 => fsub (high.getD 0 none) (low.getD 0 none)
    | i + 1 =>
      let hl := fsub (high.getD (i + 1) none) (low.getD (i + 1) none)
      let hpc := fabs (fsub (high.getD (i + 1) none) (close.getD i none))
      let lpc := fabs (fsub (low.getD (i + 1) none) (close.getD i none))
      if fge hl hpc && fge hl lpc then hl
      else if fge hpc hl && fge hpc lpc then hpc
      else lpc)

/-- Embedding of `atr` (src/indicators.rs): the result buffer starts all-zero;
if `period ≤ n` the seed `result[period-1]` is the simple average of the first
`period` true ranges and the sequential loop applies Wilder's smoothing
`result[i] = ((period-1)*result[i-1] + tr[i]) / period` for `i` in
`period..n`, modelled by a fold that sets one buffer entry per iteration. -/
def atr (high low close : List F) (period : ℕ) : List F :=
  let n := high.length
  let result := List.replicate n (some (0 : ℚ))
  if n = 0 ∨ period = 0 then result
  else
    let tr := tr_list high low close
    if period ≤ n then
      let sum_tr := (List.range period).foldl (fun acc i => fadd acc (tr.getD i none)) (some 0)
      let seeded := result.set (period - 1) (fdiv sum_tr (some (period : ℚ)))
      (List.range (n - period)).foldl
        (fun res k =>
          let i := period + k
          res.set i (fdiv (fadd (fmul (some ((period : ℚ) - 1)) (res.getD (i - 1) none))
            (tr.getD i none)) (some (period : ℚ))))
        seeded
    else result

/-- The running-extreme scan used by the window loop of `ichimoku_line_inner`:
candidate `g j` replaces the accumulator exactly when `cmp (g j) acc` holds,
so a NaN candidate never wins and a NaN accumulator is never replaced. -/
def scan_extreme (cmp : F → F → Bool) (g : ℕ → F) (js : List ℕ) (a : F) : F :=
  js.foldl (fun acc j => if cmp (g j) acc then g j else acc) a

/-- Embedding of `ichimoku_line_inner` (src/ichimoku.rs): rolling
`(max_high + min_low) / 2` over `period` bars into an all-zero buffer, with the
initial positions backfilled from the first computed value.  The Rust loop
updates the running max and min in a single pass; the two updates are
independent, so they are modelled as two scans over the same window
`j = i-period+2 .. i` started from the window's first elements. -/
def ichimoku_line_inner (high low : List F) (period : ℕ) : List F :=
  let n := high.length
  if n < period ∨ period = 0 then List.replicate n (some 0)
  else
    let js := fun i => (List.range (period - 1)).map (fun k => i + 2 - period + k)
    let computed := (List.range n).map (fun i =>
      if i + 1 < period then (some 0 : F)
      else
        let max_high := scan_extreme fgt (fun j => high.getD j none) (js i)
          (high.getD (i + 1 - period) none)
        let min_low := scan_extreme flt (fun j => low.getD j none) (js i)
          (low.getD (i + 1 - period) none)
        fdiv (fadd max_high min_low) (some 2))
    if period - 1 < n ∧ 1 < period then
      (List.range n).map (fun i =>
        if i + 1 < period then computed.getD (period - 1) none else computed.getD i none)
    else computed

/-- Embedding of `ichimoku_line_hull_inner` (src/ichimoku_hull.rs): Hull MA of
the bar midpoint `(high[i] + low[i]) / 2`. -/
def ichimoku_line_hull_inner (high low : List F) (period : ℕ) : List F :=
  let hl_median := (List.range high.length).map
    (fun i => fdiv (fadd (high.getD i none) (low.getD i none)) (some 2))
  hullma_inner hl_median period

/-- Embedding of `ichimoku_components_hull` (src/ichimoku_hull.rs): the four
Hull-smoothed components; `senkou_a` starts as all-NaN and position i is filled
with the tenkan/kijun average only when neither operand is NaN. -/
def ichimoku_components_hull (high low : List F) (tenkan_period kijun_period senkou_period : ℕ) :
    List F × List F × List F × List F :=
  let n := high.length
  let tenkan := ichimoku_line_hull_inner high low tenkan_period
  let kijun := ichimoku_line_hull_inner high low kijun_period
  let senkou_a := (List.range n).map (fun i =>
    if !(tenkan.getD i none).isNone && !(kijun.getD i none).isNone then
      fdiv (fadd (tenkan.getD i none) (kijun.getD i none)) (some 2)
    else none)
  let senkou_b := ichimoku_line_hull_inner high low senkou_period
  (tenkan, kijun, senkou_a, senkou_b)

/-- Embedding of `hullma_trend` (src/hull_signals.rs): compares the last
elements of the short and long Hull MA series; 0 on insufficient length, NaN,
or exact equality. -/
def hullma_trend (hullma_short hullma_long : List F) : Int :=
  if hullma_short.length < 2 ∨ hullma_long.length < 2 then 0
  else
    let current_short := hullma_short.getD (hullma_short.length - 1) none
    let current_long := hullma_long.getD (hullma_long.length - 1) none
    if current_short.isNone ∨ current_long.isNone then 0
    else if fgt current_short current_long then 1
    else if flt current_short current_long then -1
    else 0

/-! ### Basic facts about the modelled f64 operations -/

lemma fadd_none_left (x : F) : fadd none x = none := by cases x <;> rfl

lemma fadd_none_right (x : F) : fadd x none = none := by cases x <;> rfl

lemma fadd_some (a b : ℚ) : fadd (some a) (some b) = some (a + b) := rfl

lemma fmul_none_right (x : F) : fmul x none = none := by cases x <;> rfl

lemma fmul_some (a b : ℚ) : fmul (some a) (some b) = some (a * b) := rfl

lemma fmul_some_isSome (w : ℚ) (x : F) : (fmul (some w) x).isSome = x.isSome := by
  cases x <;> rfl

lemma fmul_some_getD (w : ℚ) (x : F) : (fmul (some w) x).getD 0 = w * x.getD 0 := by
  cases x <;> simp [fmul]

lemma fdiv_none_left (x : F) : fdiv none x = none := by cases x <;> rfl

lemma fdiv_some (a b : ℚ) (hb : b ≠ 0) : fdiv (some a) (some b) = some (a / b) := by
  simp [fdiv, hb]

lemma fsub_some (a b : ℚ) : fsub (some a) (some b) = some (a - b) := rfl

lemma fgt_none_left (y : F) : fgt none y = false := by cases y <;> rfl

lemma fgt_none_right (x : F) : fgt x none = false := by cases x <;> rfl

lemma flt_none_left (y : F) : flt none y = false := by cases y <;> rfl

lemma flt_none_right (x : F) : flt x none = false := by cases x <;> rfl

/-! ### List access helpers -/

lemma getD_map_range (f : ℕ → F) {n i : ℕ} (d : F) (h : i < n) :
    ((List.range n).map f).getD i d = f i := by
  rw [List.getD_eq_getElem?_getD, List.getElem?_map, List.getElem?_range h]
  rfl

lemma getD_replicate {α : Type} (a d : α) {n i : ℕ} (h : i < n) :
    (List.replicate n a).getD i d = a := by
  rw [List.getD_eq_getElem?_getD, List.getElem?_replicate, if_pos h]
  rfl

lemma getD_default_irrel {α : Type} (l : List α) (i : ℕ) (d1 d2 : α) (h : i < l.length) :
    l.getD i d1 = l.getD i d2 := by
  rw [List.getD_eq_getElem?_getD, List.getD_eq_getElem?_getD, List.getElem?_eq_getElem h]
  rfl

/-! ### The weighted-sum fold of the WMA window -/

/-- A left fold of NaN-propagating additions equals the rational sum exactly
when every summand is defined, and NaN otherwise. -/
lemma foldl_fadd_sum (g : ℕ → F) (p : ℕ) :
    (List.range p).foldl (fun acc j => fadd acc (g j)) (some 0) =
      if ∀ j, j < p → (g j).isSome then
        some (∑ j in Finset.range p, (g j).getD 0)
      else none := by
  induction p with
  | zero => simp
  | succ p ih =>
    rw [List.range_succ, List.foldl_append, ih]
    by_cases h : ∀ j, j < p → (g j).isSome
    · rw [if_pos h]
      by_cases hp : (g p).isSome
      · obtain ⟨x, hx⟩ := Option.isSome_iff_exists.mp hp
        have hall : ∀ j, j < p + 1 → (g j).isSome := by
          intro j hj
          rcases Nat.lt_succ_iff_lt_or_eq.mp hj with h1 | h1
          · exact h j h1
          · subst h1; exact hp
        rw [if_pos hall, Finset.sum_range_succ]
        simp [hx, fadd_some]
      · have hx : g p = none := Option.not_isSome_iff_eq_none.mp hp
        rw [if_neg (fun hall => hp (hall p (Nat.lt_succ_self p)))]
        simp [hx, fadd_none_right]
    · rw [if_neg h, if_neg (fun hall => h (fun j hj => hall j (Nat.lt_succ_of_lt hj)))]
      simp [fadd_none_left]

/-- Weighted variant: the WMA window sum with per-index rational weights. -/
lemma foldl_weighted (w : ℕ → ℚ) (g : ℕ → F) (p : ℕ) :
    (List.range p).foldl (fun acc j => fadd acc (fmul (some (w j)) (g j))) (some 0) =
      if ∀ j, j < p → (g j).isSome then
        some (∑ j in Finset.range p, w j * (g j).getD 0)
      else none := by
  refine (foldl_fadd_sum (fun j => fmul (some (w j)) (g j)) p).trans ?_
  by_cases h : ∀ j, j < p → (g j).isSome
  · rw [if_pos (fun j hj => by rw [fmul_some_isSome]; exact h j hj), if_pos h]
    congr 1
    exact Finset.sum_congr rfl (fun j _ => fmul_some_getD (w j) (g j))
  · rw [if_neg (fun hall => h (fun j hj => by rw [← fmul_some_isSome (w j)]; exact hall j hj)),
      if_neg h]

/-! ### WMA: unfolding lemmas -/

lemma wma_inner_degenerate (S : List F) (p : ℕ) (h : S.length < p ∨ p = 0) :
    wma_inner S p = List.replicate S.length none := by
  simp only [wma_inner]
  rw [if_pos h]

lemma wma_inner_length (S : List F) (p : ℕ) : (wma_inner S p).length = S.length := by
  simp only [wma_inner]
  by_cases h : S.length < p ∨ p = 0
  · rw [if_pos h, List.length_replicate]
  · rw [if_neg h, List.length_map, List.length_range]

lemma wma_inner_getD (S : List F) (p i : ℕ) (d : F) (hp : p ≤ S.length) (hp0 : p ≠ 0)
    (hi : i < S.length) :
    (wma_inner S p).getD i d =
      if i + 1 < p then none
      else if ∀ j, j < p → (S.getD (i - j) none).isSome then
        some ((∑ j in Finset.range p, ((p - j : ℕ) : ℚ) * (S.getD (i - j) none).getD 0) /
          (((p * (p + 1) : ℕ) : ℚ) / 2))
      else none := by
  simp only [wma_inner]
  rw [if_neg (by omega), getD_map_range _ d hi]
  by_cases hip : i + 1 < p
  · rw [if_pos hip, if_pos hip]
  · rw [if_neg hip, if_neg hip]
    rw [foldl_weighted (fun j => ((p - j : ℕ) : ℚ)) (fun j => S.getD (i - j) none) p]
    have hden : (((p * (p + 1) : ℕ) : ℚ) / 2) ≠ 0 := by
      have h2 : (2 : ℕ) ≤ p * (p + 1) := by nlinarith [Nat.one_le_iff_ne_zero.mpr hp0]
      have : (0 : ℚ) < ((p * (p + 1) : ℕ) : ℚ) := by exact_mod_cast Nat.lt_of_lt_of_le Nat.zero_lt_two h2
      positivity
    by_cases hall : ∀ j, j < p → (S.getD (i - j) none).isSome
    · rw [if_pos hall, if_pos hall, fdiv_some _ _ hden]
    · rw [if_neg hall, if_neg hall, fdiv_none_left]

/-! ### C1: WMA contract -/

/-- The WMA output value the specification prescribes at position i: NaN when
any window sample is NaN, otherwise the linear-weighted window sum divided by
the fixed weight total `period*(period+1)/2`. -/
def wmaSpecAt (S : List F) (p i : ℕ) : F :=
  if ∀ j, j < p → (S.getD (i - j) none).isSome then
    some ((∑ j in Finset.range p, ((p - j : ℕ) : ℚ) * (S.getD (i - j) none).getD 0) /
      (((p * (p + 1) : ℕ) : ℚ) / 2))
  else none

/-- C1: `wma` returns an all-NaN series of the input length when the series is
shorter than the period or the period is 0; otherwise positions `[0, p-1)` are
NaN and every position `i ≥ p-1` holds the weighted window sum
`Σ_{j<p} (p-j)·S[i-j]` divided by `p(p+1)/2` (NaN when the window contains a
NaN). -/
theorem C1_wma_contract (S : List F) (p : ℕ) :
    (S.length < p ∨ p = 0 → wma_inner S p = List.replicate S.length none) ∧
    (p ≤ S.length → p ≠ 0 → ∀ i, i < S.length →
      (i + 1 < p → (wma_inner S p).getD i (some 0) = none) ∧
      (p ≤ i + 1 → (wma_inner S p).getD i (some 0) = wmaSpecAt S p i)) := by
  refine ⟨fun h => wma_inner_degenerate S p h, fun hp hp0 i hi => ?_⟩
  rw [wma_inner_getD S p i (some 0) hp hp0 hi]
  constructor
  · intro hip
    rw [if_pos hip]
  · intro hip
    rw [if_neg (by omega), wmaSpecAt]

theorem C1_witness :
    2 ≤ ([some 1, some 2, some 3] : List F).length ∧ (2 : ℕ) ≠ 0 ∧
      (wma_inner [some 1, some 2, some 3] 2).getD 1 (some 0) =
        wmaSpecAt [some 1, some 2, some 3] 2 1 :=
  ⟨by decide, by decide,
    ((C1_wma_contract [some 1, some 2, some 3] 2).2 (by decide) (by decide) 1
      (by decide)).2 (by decide)⟩

/-! ### C8: WMA at period 1 is the identity -/

/-- C8: `wma(S, 1)` equals `S` element for element. -/
theorem C8_wma_period_one (S : List F) : wma_inner S 1 = S := by
  rcases S with _ | ⟨x, xs⟩
  · rfl
  · apply List.ext_getElem?
    intro i
    have hlen : (wma_inner (x :: xs) 1).length = (x :: xs).length :=
      wma_inner_length (x :: xs) 1
    by_cases hi : i < (x :: xs).length
    · rw [List.getElem?_eq_getElem (by omega), List.getElem?_eq_getElem hi]
      have h1 : (wma_inner (x :: xs) 1).getD i (some 0) = (x :: xs).getD i (some 0) := by
        rw [wma_inner_getD (x :: xs) 1 i (some 0) (by simp) one_ne_zero hi]
        rw [if_neg (by omega)]
        by_cases hall : ∀ j, j < 1 → ((x :: xs).getD (i - j) none).isSome
        · rw [if_pos hall]
          obtain ⟨q, hq⟩ := Option.isSome_iff_exists.mp (hall 0 Nat.zero_lt_one)
        
          rw [List.getD_eq_getElem?_getD, List.getElem?_eq_getElem hi]
          have hq2 : (x :: xs).getD (i - 0) none = some q := hq
          rw [Nat.sub_zero] at hq2
          rw [List.getD_eq_getElem?_getD, List.getElem?_eq_getElem hi] at hq2
          simp only [Option.getD_some] at hq2 ⊢
          rw [hq2]
          congr 1
          rw [Finset.sum_range_one, hq]
          norm_num
        · rw [if_neg hall]
          push_neg at hall
          obtain ⟨j, hj, hnone⟩ := hall
          interval_cases j
          rw [Nat.sub_zero] at hnone
          rw [List.getD_eq_getElem?_getD, List.getElem?_eq_getElem hi] at hnone ⊢
          simp only [Option.getD_some] at hnone ⊢
          exact (Option.not_isSome_iff_eq_none.mp hnone).symm
      rw [List.getD_eq_getElem?_getD, List.getElem?_eq_getElem (by omega)] at h1
      rw [List.getD_eq_getElem?_getD, List.getElem?_eq_getElem hi] at h1
      simpa using h1
    · rw [List.getElem?_eq_none (by omega), List.getElem?_eq_none (by omega)]

/-! ### C2: the Hull MA four-stage pipeline -/

/-- The Hull MA pipeline exactly as the specification words it: fast WMA with
period `max(p/2, 2)`, slow WMA with period `p`, NaN-aware lag elimination
`raw[i] = 2*wma_half[i] - wma_full[i]`, and a final WMA with period
`max(floor(sqrt(p)), 2)`; all-NaN when the series is shorter than the period or
the period is 0. -/
def hullmaPipelineSpec (prices : List F) (period : ℕ) : List F :=
  if prices.length < period ∨ period = 0 then List.replicate prices.length none
  else
    let wma_half := wma_inner prices (max (period / 2) 2)
    let wma_full := wma_inner prices period
    let raw := (List.range prices.length).map (fun i =>
      match wma_half.getD i none, wma_full.getD i none with
      | some a, some b => some (2 * a - b)
      | _, _ => none)
    wma_inner raw (max (Nat.sqrt period) 2)

/-- C2: `hullma` equals the four-stage pipeline of the specification
(fast WMA at `max(p/2,2)`, slow WMA at `p`, NaN-aware `2*fast - slow`, final
WMA at `max(floor(sqrt p),2)`), and degenerates to an all-NaN series when the
input is shorter than the period or the period is 0. -/
theorem C2_hullma_pipeline (prices : List F) (period : ℕ) :
    hullma_inner prices period = hullmaPipelineSpec prices period := by
  simp only [hullma_inner, hullmaPipelineSpec]
  by_cases h : prices.length < period ∨ period = 0
  · rw [if_pos h, if_pos h]
  · rw [if_neg h, if_neg h]
    congr 1
    apply List.map_congr_left
    intro i _
    cases h1 : (wma_inner prices (max (period / 2) 2)).getD i none with
    | none => simp [h1]
    | some a =>
      cases h2 : (wma_inner prices period).getD i none with
      | none => simp [h1, h2]
      | some b =>
        simp only [h1, h2, Option.isNone_some, or_self, if_false, Bool.false_eq_true]
        rw [fmul_some, fsub_some]

/-! ### C7: NaN-prefix length -/

/-- Length of the leading run of NaN values in a series. -/
def nanPrefixLen : List F → ℕ
  | [] => 0
  | none :: xs => nanPrefixLen xs + 1
  | some _ :: _ => 0

lemma nanPrefixLen_le_length (l : List F) : nanPrefixLen l ≤ l.length := by
  induction l with
  | nil => simp [nanPrefixLen]
  | cons x xs ih =>
    cases x with
    | none => simpa [nanPrefixLen] using ih
    | some q => simp [nanPrefixLen]

lemma nanPrefixLen_replicate_none (n : ℕ) : nanPrefixLen (List.replicate n none) = n := by
  induction n with
  | zero => rfl
  | succ n ih => simp [List.replicate_succ, nanPrefixLen, ih]

lemma getD_eq_none_of_lt_nanPrefixLen (l : List F) (i : ℕ) (h : i < nanPrefixLen l) :
    l.getD i (some 0) = none := by
  induction l generalizing i with
  | nil => simp [nanPrefixLen] at h
  | cons x xs ih =>
    cases x with
    | none =>
      cases i with
      | zero => rfl
      | succ i =>
        simp only [nanPrefixLen] at h
        exact ih i (by omega)
    | some q => simp [nanPrefixLen] at h

lemma le_nanPrefixLen (l : List F) (k : ℕ) (hk : k ≤ l.length)
    (h : ∀ i, i < k → l.getD i (some 0) = none) : k ≤ nanPrefixLen l := by
  induction l generalizing k with
  | nil => simpa [nanPrefixLen] using hk
  | cons x xs ih =>
    cases k with
    | zero => exact Nat.zero_le _
    | succ k =>
      have h0 : x = none := h 0 (Nat.succ_pos k)
      subst h0
      simp only [nanPrefixLen]
      have : k ≤ nanPrefixLen xs := by
        refine ih k (by simpa using hk) (fun i hi => ?_)
        exact h (i + 1) (by omega)
      omega

lemma hullma_inner_length (S : List F) (p : ℕ) : (hullma_inner S p).length = S.length := by
  simp only [hullma_inner]
  by_cases h : S.length < p ∨ p = 0
  · rw [if_pos h, List.length_replicate]
  · rw [if_neg h, wma_inner_length, List.length_map, List.length_range]

/-- Any WMA output has a NaN prefix at least as long as that of its input:
positions below the input's NaN prefix either lie in the warm-up prefix or have
a window that contains the NaN at position i itself. -/
lemma nanPrefixLen_input_le_wma (S : List F) (p : ℕ) :
    nanPrefixLen S ≤ nanPrefixLen (wma_inner S p) := by
  refine le_nanPrefixLen _ _ (by rw [wma_inner_length]; exact nanPrefixLen_le_length S) ?_
  intro i hi
  have hin : i < S.length := Nat.lt_of_lt_of_le hi (nanPrefixLen_le_length S)
  by_cases hdeg : S.length < p ∨ p = 0
  · rw [wma_inner_degenerate S p hdeg, getD_replicate _ _ hin]
  · push_neg at hdeg
    rw [wma_inner_getD S p i (some 0) hdeg.1 hdeg.2 hin]
    by_cases hip : i + 1 < p
    · rw [if_pos hip]
    · rw [if_neg hip, if_neg]
      intro hall
      have h0 := hall 0 (by omega)
      rw [Nat.sub_zero, getD_default_irrel S i none (some 0) hin,
        getD_eq_none_of_lt_nanPrefixLen S i hi] at h0
      simp at h0

/-- C7: the Hull MA has the input's length and a NaN prefix at least as long
as that of the plain WMA with the same period. -/
theorem C7_hullma_nanPrefixLen_ge (S : List F) (p : ℕ) :
    (hullma_inner S p).length = S.length ∧
    nanPrefixLen (wma_inner S p) ≤ nanPrefixLen (hullma_inner S p) := by
  refine ⟨hullma_inner_length S p, ?_⟩
  by_cases hdeg : S.length < p ∨ p = 0
  · rw [wma_inner_degenerate S p hdeg]
    simp only [hullma_inner]
    rw [if_pos hdeg]
  · push_neg at hdeg
    simp only [hullma_inner]
    rw [if_neg (by omega)]
    set raw := (List.range S.length).map (fun i =>
      if ((wma_inner S (max (p / 2) 2)).getD i none).isNone ∨
          ((wma_inner S p).getD i none).isNone then none
      else fsub (fmul (some 2) ((wma_inner S (max (p / 2) 2)).getD i none))
        ((wma_inner S p).getD i none)) with hraw
    have hrawlen : raw.length = S.length := by rw [hraw, List.length_map, List.length_range]
    have h1 : nanPrefixLen (wma_inner S p) ≤ nanPrefixLen raw := by
      refine le_nanPrefixLen _ _ ?_ ?_
      · rw [hrawlen, ← wma_inner_length S p]; exact nanPrefixLen_le_length _
      · intro i hi
        have hin : i < S.length := by
          rw [← wma_inner_length S p]
          exact Nat.lt_of_lt_of_le hi (nanPrefixLen_le_length _)
        rw [hraw, getD_map_range _ _ hin]
        rw [if_pos]
        right
        have := getD_eq_none_of_lt_nanPrefixLen (wma_inner S p) i hi
        rw [getD_default_irrel _ i none (some 0) (by rw [wma_inner_length]; exact hin), this]
        rfl
    exact Nat.le_trans h1 (nanPrefixLen_input_le_wma raw (max (Nat.sqrt p) 2))

/-! ### C6: EMA contract -/

lemma ema_getD (data : List F) (p i : ℕ) (hn : data.length ≠ 0) (hp : p ≠ 0)
    (hi : i < data.length) :
    (ema data p).getD i (some 0) = emaAux data (2 / ((p : ℚ) + 1)) i := by
  simp only [ema]
  rw [if_neg (by omega), getD_map_range _ _ hi]

lemma emaAux_isSome (data : List F) (alpha : ℚ) (h : ∀ x ∈ data, x.isSome) :
    ∀ i, i < data.length → (emaAux data alpha i).isSome := by
  intro i
  induction i with
  | zero =>
    intro hi
    have : data.getD 0 none = data[0] := by
      rw [List.getD_eq_getElem?_getD, List.getElem?_eq_getElem hi]; rfl
    rw [emaAux, this]
    exact h _ (List.getElem_mem hi)
  | succ i ih =>
    intro hi
    have h1 : (data.getD (i + 1) none).isSome := by
      have : data.getD (i + 1) none = data[i + 1] := by
        rw [List.getD_eq_getElem?_getD, List.getElem?_eq_getElem hi]; rfl
      rw [this]
      exact h _ (List.getElem_mem hi)
    obtain ⟨a, ha⟩ := Option.isSome_iff_exists.mp h1
    obtain ⟨b, hb⟩ := Option.isSome_iff_exists.mp (ih (by omega))
    rw [emaAux, ha, hb, fmul_some, fmul_some, fadd_some]
    rfl

/-- C6 counterexample: the claim quantifies over every non-empty series, but a
NaN input propagates: `ema([NaN], 1)` holds a NaN at position 0. -/
theorem C6_counterexample :
    ¬ (∀ i, i < (ema [none] 1).length → ((ema [none] 1).getD i (some 0)).isSome) := by
  intro h
  have := h 0 (by simp [ema])
  simp [ema, emaAux] at this

/-- C6 (amended): for empty input or period 0 the result is the all-zero
series; otherwise `result[0] = data[0]` and every later position follows the
recurrence `result[i] = alpha*data[i] + (1-alpha)*result[i-1]` with
`alpha = 2/(p+1)`; and the output contains no NaN provided the input contains
no NaN. -/
theorem C6_ema_contract (data : List F) (p : ℕ) :
    (data.length = 0 ∨ p = 0 → ema data p = List.replicate data.length (some 0)) ∧
    (data.length ≠ 0 → p ≠ 0 →
      (ema data p).getD 0 (some 0) = data.getD 0 none ∧
      (∀ i, 1 ≤ i → i < data.length →
        (ema data p).getD i (some 0) =
          fadd (fmul (some (2 / ((p : ℚ) + 1))) (data.getD i none))
            (fmul (some (1 - 2 / ((p : ℚ) + 1))) ((ema data p).getD (i - 1) (some 0)))) ∧
      ((∀ x ∈ data, x.isSome) →
        ∀ i, i < data.length → ((ema data p).getD i (some 0)).isSome)) := by
  constructor
  · intro h
    simp only [ema]
    rw [if_pos h]
  · intro hn hp
    refine ⟨?_, ?_, ?_⟩
    · rw [ema_getD data p 0 hn hp (by omega), emaAux]
    · intro i h1 hi
      obtain ⟨k, rfl⟩ : ∃ k, i = k + 1 := ⟨i - 1, by omega⟩
      rw [ema_getD data p (k + 1) hn hp hi]
      simp only [Nat.add_sub_cancel]
      rw [ema_getD data p k hn hp (by omega), emaAux]
    · intro hall i hi
      rw [ema_getD data p i hn hp hi]
      exact emaAux_isSome data _ hall i hi

theorem C6_witness :
    ([some 1, some 2] : List F).length ≠ 0 ∧ (2 : ℕ) ≠ 0 ∧
      (ema [some 1, some 2] 2).getD 0 (some 0) = some 1 ∧
      ((ema [some 1, some 2] 2).getD 1 (some 0)).isSome :=
  ⟨by decide, by decide,
    by
      have h := ((C6_ema_contract [some 1, some 2] 2).2 (by decide) (by decide)).1
      rw [h]; rfl,
    ((C6_ema_contract [some 1, some 2] 2).2 (by decide) (by decide)).2.2
      (by decide) 1 (by decide)⟩

/-! ### C9: trend classification -/


lemma hullma_trend_short (short long : List F)
    (h : short.length < 2 ∨ long.length < 2) : hullma_trend short long = 0 := by
  simp only [hullma_trend]
  rw [if_pos h]

lemma hullma_trend_vals (short long : List F) (a b : ℚ)
    (hlen : 2 ≤ short.length ∧ 2 ≤ long.length)
    (hs : short.getD (short.length - 1) none = some a)
    (hl : long.getD (long.length - 1) none = some b) :
    hullma_trend short long = if b < a then 1 else if a < b then -1 else 0 := by
  simp only [hullma_trend]
  rw [if_neg (by omega), hs, hl]
  simp [fgt, flt]

lemma hullma_trend_nan (short long : List F)
    (hlen : 2 ≤ short.length ∧ 2 ≤ long.length)
    (h : short.getD (short.length - 1) none = none ∨
      long.getD (long.length - 1) none = none) :
    hullma_trend short long = 0 := by
  simp only [hullma_trend]
  rw [if_neg (by omega)]
  rcases h with h | h <;> rw [h] <;> simp

/-- C9: `hullma_trend` only returns -1, 0 or 1; it returns 0 exactly when a
series is shorter than 2, a last element is NaN, or the last elements are
equal; otherwise it returns 1 when the short series' last element is larger
and -1 when it is smaller. -/
theorem C9_hullma_trend_spec (short long : List F) :
    (hullma_trend short long = -1 ∨ hullma_trend short long = 0 ∨
      hullma_trend short long = 1) ∧
    (hullma_trend short long = 0 ↔
      short.length < 2 ∨ long.length < 2 ∨
      short.getD (short.length - 1) none = none ∨
      long.getD (long.length - 1) none = none ∨
      short.getD (short.length - 1) none = long.getD (long.length - 1) none) ∧
    (∀ a b : ℚ, 2 ≤ short.length → 2 ≤ long.length →
      short.getD (short.length - 1) none = some a →
      long.getD (long.length - 1) none = some b →
      (b < a → hullma_trend short long = 1) ∧
      (a < b → hullma_trend short long = -1)) := by
  by_cases hlen : short.length < 2 ∨ long.length < 2
  · have h0 := hullma_trend_short short long hlen
    refine ⟨Or.inr (Or.inl h0), by rw [h0]; tauto, ?_⟩
    intro a b ha hb _ _
    exact absurd hlen (by omega)
  · push_neg at hlen
    cases hs : short.getD (short.length - 1) none with
    | none =>
      have h0 := hullma_trend_nan short long hlen (Or.inl hs)
      refine ⟨Or.inr (Or.inl h0), ⟨fun _ => by tauto, fun _ => h0⟩, ?_⟩
      intro a b _ _ has
      exact absurd has (by simp)
    | some a =>
      cases hl : long.getD (long.length - 1) none with
      | none =>
        have h0 := hullma_trend_nan short long hlen (Or.inr hl)
        refine ⟨Or.inr (Or.inl h0), ⟨fun _ => by tauto, fun _ => h0⟩, ?_⟩
        intro a2 b _ _ _ hbs
        exact absurd hbs (by simp)
      | some b =>
        have key := hullma_trend_vals short long a b hlen hs hl
        rcases lt_trichotomy a b with hab | hab | hab
        · have hres : hullma_trend short long = -1 := by
            rw [key, if_neg (by linarith), if_pos hab]
          refine ⟨Or.inl hres, ?_, ?_⟩
          · rw [hres]
            constructor
            · intro h; exact absurd h (by norm_num)
            · rintro (h | h | h | h | h)
              · omega
              · omega
              · exact absurd h (by simp)
              · exact absurd h (by simp)
              · have := Option.some_inj.mp h; linarith
          · intro a2 b2 _ _ ha2 hb2
            have e1 : a = a2 := Option.some_inj.mp ha2
            have e2 : b = b2 := Option.some_inj.mp hb2
            subst e1; subst e2
            exact ⟨fun h => absurd h (by linarith), fun _ => hres⟩
        · subst hab
          have hres : hullma_trend short long = 0 := by
            rw [key, if_neg (lt_irrefl a), if_neg (lt_irrefl a)]
          refine ⟨Or.inr (Or.inl hres), ?_, ?_⟩
          · rw [hres]
            refine ⟨fun _ => ?_, fun _ => rfl⟩
            exact Or.inr (Or.inr (Or.inr (Or.inr rfl)))
          · intro a2 b2 _ _ ha2 hb2
            have e1 : a = a2 := Option.some_inj.mp ha2
            have e2 : a = b2 := Option.some_inj.mp hb2
            subst e1
            constructor
            · intro h; exact absurd h (by rw [← e2]; exact lt_irrefl a)
            · intro h; exact absurd h (by rw [← e2]; exact lt_irrefl a)
        · have hres : hullma_trend short long = 1 := by
            rw [key, if_pos hab]
          refine ⟨Or.inr (Or.inr hres), ?_, ?_⟩
          · rw [hres]
            constructor
            · intro h; exact absurd h (by norm_num)
            · rintro (h | h | h | h | h)
              · omega
              · omega
              · exact absurd h (by simp)
              · exact absurd h (by simp)
              · have := Option.some_inj.mp h; linarith
          · intro a2 b2 _ _ ha2 hb2
            have e1 : a = a2 := Option.some_inj.mp ha2
            have e2 : b = b2 := Option.some_inj.mp hb2
            subst e1; subst e2
            exact ⟨fun _ => hres, fun h => absurd h (by linarith)⟩

theorem C9_witness :
    2 ≤ ([some 0, some 5] : List F).length ∧ 2 ≤ ([some 0, some 3] : List F).length ∧
      hullma_trend [some 0, some 5] [some 0, some 3] = 1 :=
  ⟨by decide, by decide,
    (((C9_hullma_trend_spec [some 0, some 5] [some 0, some 3]).2.2 5 3
      (by decide) (by decide) (by decide) (by decide)).1 (by norm_num))⟩

/-! ### C5: NaN-aware senkou span A -/

lemma ichimoku_line_hull_inner_length (high low : List F) (p : ℕ) :
    (ichimoku_line_hull_inner high low p).length = high.length := by
  simp only [ichimoku_line_hull_inner]
  rw [hullma_inner_length, List.length_map, List.length_range]

/-- C5: in `ichimoku_components_hull`, `senkou_a[i]` is NaN exactly when
`tenkan[i]` or `kijun[i]` is NaN, and otherwise equals their average. -/
theorem C5_senkou_a_nan_aware (high low : List F) (tp kp sp i : ℕ)
    (hi : i < high.length) :
    ((ichimoku_components_hull high low tp kp sp).2.2.1.getD i none = none ↔
      (ichimoku_components_hull high low tp kp sp).1.getD i none = none ∨
      (ichimoku_components_hull high low tp kp sp).2.1.getD i none = none) ∧
    (∀ a b : ℚ,
      (ichimoku_components_hull high low tp kp sp).1.getD i none = some a →
      (ichimoku_components_hull high low tp kp sp).2.1.getD i none = some b →
      (ichimoku_components_hull high low tp kp sp).2.2.1.getD i none =
        some ((a + b) / 2)) := by
  simp only [ichimoku_components_hull]
  rw [getD_map_range _ _ hi]
  cases ht : (ichimoku_line_hull_inner high low tp).getD i none with
  | none =>
    simp only [Option.isNone_none, Bool.not_true, Bool.false_and, Bool.false_eq_true, if_false]
    exact ⟨by tauto, fun a b ha _ => absurd ha (by simp)⟩
  | some a =>
    cases hk : (ichimoku_line_hull_inner high low kp).getD i none with
    | none =>
      simp only [Option.isNone_none, Option.isNone_some, Bool.not_true, Bool.not_false,
        Bool.true_and, Bool.and_false, Bool.false_eq_true, if_false]
      exact ⟨by tauto, fun a2 b _ hb => absurd hb (by simp)⟩
    | some b =>
      simp only [Option.isNone_some, Bool.not_false, Bool.true_and, Bool.and_self, if_true]
      rw [fadd_some, fdiv_some _ _ (by norm_num)]
      constructor
      · simp
      · intro a2 b2 ha2 hb2
        rw [← Option.some_inj.mp ha2, ← Option.some_inj.mp hb2]

theorem C5_witness :
    2 < ([some 3, some 4, some 5, some 2, some 6] : List F).length ∧
    ((ichimoku_components_hull [some 3, some 4, some 5, some 2, some 6]
        [some 1, some 2, some 3, some 0, some 4] 2 2 2).2.2.1.getD 2 none = none ↔
      (ichimoku_components_hull [some 3, some 4, some 5, some 2, some 6]
        [some 1, some 2, some 3, some 0, some 4] 2 2 2).1.getD 2 none = none ∨
      (ichimoku_components_hull [some 3, some 4, some 5, some 2, some 6]
        [some 1, some 2, some 3, some 0, some 4] 2 2 2).2.1.getD 2 none = none) :=
  ⟨by decide,
    (C5_senkou_a_nan_aware [some 3, some 4, some 5, some 2, some 6]
      [some 1, some 2, some 3, some 0, some 4] 2 2 2 2 (by decide)).1⟩

/-! ### Ichimoku window scans -/

lemma scan_extreme_isSome (cmp : F → F → Bool) (g : ℕ → F) (js : List ℕ) (a : F)
    (hcmp : ∀ y, cmp none y = false) (ha : a.isSome) : (scan_extreme cmp g js a).isSome := by
  induction js generalizing a with
  | nil => exact ha
  | cons j js ih =>
    simp only [scan_extreme, List.foldl_cons]
    by_cases hw : cmp (g j) a = true
    · rw [if_pos hw]
      refine ih (g j) ?_
      cases hgj : g j with
      | none => rw [hgj] at hw; rw [hcmp a] at hw; exact absurd hw (by simp)
      | some q => simp
    · rw [if_neg hw]
      exact ih a ha

lemma scan_extreme_none (cmp : F → F → Bool) (g : ℕ → F) (js : List ℕ)
    (hcmp : ∀ x, cmp x none = false) : scan_extreme cmp g js none = none := by
  induction js with
  | nil => rfl
  | cons j js ih =>
    simp only [scan_extreme, List.foldl_cons] at ih ⊢
    rw [hcmp (g j)]
    simpa using ih

lemma scan_extreme_fgt_eq_max (g : ℕ → F) (js : List ℕ) (q : ℚ)
    (hall : ∀ j ∈ js, (g j).isSome) :
    scan_extreme fgt g js (some q) =
      some (js.foldl (fun m j => max m ((g j).getD 0)) q) := by
  induction js generalizing q with
  | nil => rfl
  | cons j js ih =>
    obtain ⟨x, hx⟩ := Option.isSome_iff_exists.mp (hall j (List.mem_cons_self j js))
    simp only [scan_extreme, List.foldl_cons] at ih ⊢
    rw [hx]
    have htail : ∀ j2 ∈ js, (g j2).isSome := fun j2 h2 => hall j2 (List.mem_cons_of_mem j h2)
    by_cases hlt : q < x
    · rw [if_pos (by simp [fgt, hlt])]
      have hqx : q ⊔ (some x : F).getD 0 = x := by
        simp only [Option.getD_some]
        exact max_eq_right (le_of_lt hlt)
      rw [hqx]
      exact ih x htail
    · rw [if_neg (by simp [fgt]; exact le_of_not_lt hlt)]
      have hqx : q ⊔ (some x : F).getD 0 = q := by
        simp only [Option.getD_some]
        exact max_eq_left (le_of_not_lt hlt)
      rw [hqx]
      exact ih q htail

lemma scan_extreme_flt_eq_min (g : ℕ → F) (js : List ℕ) (q : ℚ)
    (hall : ∀ j ∈ js, (g j).isSome) :
    scan_extreme flt g js (some q) =
      some (js.foldl (fun m j => min m ((g j).getD 0)) q) := by
  induction js generalizing q with
  | nil => rfl
  | cons j js ih =>
    obtain ⟨x, hx⟩ := Option.isSome_iff_exists.mp (hall j (List.mem_cons_self j js))
    simp only [scan_extreme, List.foldl_cons] at ih ⊢
    rw [hx]
    have htail : ∀ j2 ∈ js, (g j2).isSome := fun j2 h2 => hall j2 (List.mem_cons_of_mem j h2)
    by_cases hlt : x < q
    · rw [if_pos (by simp [flt, hlt])]
      have hqx : q ⊓ (some x : F).getD 0 = x := by
        simp only [Option.getD_some]
        exact min_eq_right (le_of_lt hlt)
      rw [hqx]
      exact ih x htail
    · rw [if_neg (by simp [flt]; exact le_of_not_lt hlt)]
      have hqx : q ⊓ (some x : F).getD 0 = q := by
        simp only [Option.getD_some]
        exact min_eq_left (le_of_not_lt hlt)
      rw [hqx]
      exact ih q htail

lemma foldl_max_spec (v : ℕ → ℚ) (js : List ℕ) (q : ℚ) :
    (js.foldl (fun m j => max m (v j)) q = q ∨
      ∃ j ∈ js, js.foldl (fun m j => max m (v j)) q = v j) ∧
    q ≤ js.foldl (fun m j => max m (v j)) q ∧
    ∀ j ∈ js, v j ≤ js.foldl (fun m j => max m (v j)) q := by
  induction js generalizing q with
  | nil => exact ⟨Or.inl rfl, le_refl q, by simp⟩
  | cons j js ih =>
    obtain ⟨hmem, hle, hbound⟩ := ih (max q (v j))
    simp only [List.foldl_cons]
    refine ⟨?_, ?_, ?_⟩
    · rcases hmem with h | ⟨j2, hj2, h⟩
      · rcases max_choice q (v j) with hm | hm
        · exact Or.inl (by rw [h, hm])
        · exact Or.inr ⟨j, List.mem_cons_self j js, by rw [h, hm]⟩
      · exact Or.inr ⟨j2, List.mem_cons_of_mem j hj2, h⟩
    · exact le_trans (le_max_left q (v j)) hle
    · intro j2 hj2
      rcases List.mem_cons.mp hj2 with h | h
      · subst h; exact le_trans (le_max_right q (v j2)) hle
      · exact hbound j2 h

lemma foldl_min_spec (v : ℕ → ℚ) (js : List ℕ) (q : ℚ) :
    (js.foldl (fun m j => min m (v j)) q = q ∨
      ∃ j ∈ js, js.foldl (fun m j => min m (v j)) q = v j) ∧
    js.foldl (fun m j => min m (v j)) q ≤ q ∧
    ∀ j ∈ js, js.foldl (fun m j => min m (v j)) q ≤ v j := by
  induction js generalizing q with
  | nil => exact ⟨Or.inl rfl, le_refl q, by simp⟩
  | cons j js ih =>
    obtain ⟨hmem, hle, hbound⟩ := ih (min q (v j))
    simp only [List.foldl_cons]
    refine ⟨?_, ?_, ?_⟩
    · rcases hmem with h | ⟨j2, hj2, h⟩
      · rcases min_choice q (v j) with hm | hm
        · exact Or.inl (by rw [h, hm])
        · exact Or.inr ⟨j, List.mem_cons_self j js, by rw [h, hm]⟩
      · exact Or.inr ⟨j2, List.mem_cons_of_mem j hj2, h⟩
    · exact le_trans hle (min_le_left q (v j))
    · intro j2 hj2
      rcases List.mem_cons.mp hj2 with h | h
      · subst h; exact le_trans hle (min_le_right q (v j2))
      · exact hbound j2 h

/-- The rest-of-window index list of `ichimoku_line_inner` holds exactly the
indices `i-p+2 .. i`. -/
lemma ichimoku_window_mem (p i j : ℕ) (hp : 1 ≤ p) (hpi : p ≤ i + 1) :
    (j ∈ (List.range (p - 1)).map (fun k => i + 2 - p + k)) ↔
      (i + 2 - p ≤ j ∧ j ≤ i) := by
  simp only [List.mem_map, List.mem_range]
  constructor
  · rintro ⟨k, hk, rfl⟩
    omega
  · intro ⟨h1, h2⟩
    exact ⟨j - (i + 2 - p), by omega, by omega⟩

lemma ichimoku_line_inner_degenerate (high low : List F) (p : ℕ)
    (h : high.length < p ∨ p = 0) :
    ichimoku_line_inner high low p = List.replicate high.length (some 0) := by
  simp only [ichimoku_line_inner]
  rw [if_pos h]

lemma ichimoku_line_inner_getD (high low : List F) (p i : ℕ) (hp : p ≤ high.length)
    (hp0 : p ≠ 0) (hi : i < high.length) (hpi : p ≤ i + 1) :
    (ichimoku_line_inner high low p).getD i (some 0) =
      fdiv (fadd
        (scan_extreme fgt (fun j => high.getD j none)
          ((List.range (p - 1)).map (fun k => i + 2 - p + k)) (high.getD (i + 1 - p) none))
        (scan_extreme flt (fun j => low.getD j none)
          ((List.range (p - 1)).map (fun k => i + 2 - p + k)) (low.getD (i + 1 - p) none)))
        (some 2) := by
  simp only [ichimoku_line_inner]
  rw [if_neg (by omega)]
  by_cases hb : p - 1 < high.length ∧ 1 < p
  · rw [if_pos hb, getD_map_range _ _ hi, if_neg (by omega),
      getD_map_range _ _ hi, if_neg (by omega)]
  · rw [if_neg hb, getD_map_range _ _ hi, if_neg (by omega)]

lemma ichimoku_line_inner_backfill (high low : List F) (p i : ℕ) (hp : p ≤ high.length)
    (h1 : 1 < p) (hi : i + 1 < p) :
    (ichimoku_line_inner high low p).getD i (some 0) =
      (ichimoku_line_inner high low p).getD (p - 1) (some 0) := by
  simp only [ichimoku_line_inner]
  rw [if_neg (by omega), if_pos ⟨by omega, h1⟩]
  rw [getD_map_range _ (some 0) (show i < high.length by omega), if_pos hi]
  rw [getD_map_range _ (some 0) (show p - 1 < high.length by omega), if_neg (by omega)]

/-- C4: `ichimoku_line` returns an all-zero series when the input is shorter
than the period or the period is 0; otherwise each position `i ≥ p-1` holds
`(max_high + min_low)/2` over the window `[i-p+1, i]` (when the window holds no
NaN), and for `p > 1` every position `i < p-1` is backfilled with the value at
`p-1`. -/
theorem C4_ichimoku_line_contract (high low : List F) (p : ℕ) :
    (high.length < p ∨ p = 0 →
      ichimoku_line_inner high low p = List.replicate high.length (some 0)) ∧
    (p ≤ high.length → p ≠ 0 →
      (∀ i, p ≤ i + 1 → i < high.length →
        (∀ j, i + 1 - p ≤ j → j ≤ i → (high.getD j none).isSome ∧ (low.getD j none).isSome) →
        ∃ M m : ℚ,
          (∃ jM, i + 1 - p ≤ jM ∧ jM ≤ i ∧ high.getD jM none = some M) ∧
          (∀ j, i + 1 - p ≤ j → j ≤ i → (high.getD j none).getD 0 ≤ M) ∧
          (∃ jm, i + 1 - p ≤ jm ∧ jm ≤ i ∧ low.getD jm none = some m) ∧
          (∀ j, i + 1 - p ≤ j → j ≤ i → m ≤ (low.getD j none).getD 0) ∧
          (ichimoku_line_inner high low p).getD i (some 0) = some ((M + m) / 2)) ∧
      (1 < p → ∀ i, i + 1 < p →
        (ichimoku_line_inner high low p).getD i (some 0) =
          (ichimoku_line_inner high low p).getD (p - 1) (some 0))) := by
  refine ⟨fun h => ichimoku_line_inner_degenerate high low p h, fun hp hp0 => ⟨?_, ?_⟩⟩
  · intro i hpi hi hwin
    obtain ⟨qh, hqh⟩ := Option.isSome_iff_exists.mp (hwin (i + 1 - p) (le_refl _) (by omega)).1
    obtain ⟨ql, hql⟩ := Option.isSome_iff_exists.mp (hwin (i + 1 - p) (le_refl _) (by omega)).2
    have hjs : ∀ j ∈ (List.range (p - 1)).map (fun k => i + 2 - p + k),
        i + 2 - p ≤ j ∧ j ≤ i := fun j hj =>
      (ichimoku_window_mem p i j (by omega) hpi).mp hj
    have hallh : ∀ j ∈ (List.range (p - 1)).map (fun k => i + 2 - p + k),
        (high.getD j none).isSome := by
      intro j hj
      obtain ⟨hja, hjb⟩ := hjs j hj
      exact (hwin j (by omega) hjb).1
    have halll : ∀ j ∈ (List.range (p - 1)).map (fun k => i + 2 - p + k),
        (low.getD j none).isSome := by
      intro j hj
      obtain ⟨hja, hjb⟩ := hjs j hj
      exact (hwin j (by omega) hjb).2
    rw [ichimoku_line_inner_getD high low p i hp hp0 hi hpi, hqh, hql,
      scan_extreme_fgt_eq_max _ _ qh hallh, scan_extreme_flt_eq_min _ _ ql halll,
      fadd_some, fdiv_some _ _ (by norm_num)]
    obtain ⟨hMmem, hMle, hMbound⟩ :=
      foldl_max_spec (fun j => (high.getD j none).getD 0)
        ((List.range (p - 1)).map (fun k => i + 2 - p + k)) qh
    obtain ⟨hmmem, hmle, hmbound⟩ :=
      foldl_min_spec (fun j => (low.getD j none).getD 0)
        ((List.range (p - 1)).map (fun k => i + 2 - p + k)) ql
    refine ⟨_, _, ?_, ?_, ?_, ?_, rfl⟩
    · rcases hMmem with h | ⟨j, hj, h⟩
      · exact ⟨i + 1 - p, le_refl _, by omega, by rw [h, hqh]⟩
      · obtain ⟨hja, hjb⟩ := hjs j hj
        refine ⟨j, by omega, hjb, ?_⟩
        obtain ⟨x, hx⟩ := Option.isSome_iff_exists.mp (hallh j hj)
        rw [h, hx]
        simp
    · intro j h1 h2
      by_cases hj0 : j = i + 1 - p
      · subst hj0
        rw [hqh]
        simpa using hMle
      · exact hMbound j ((ichimoku_window_mem p i j (by omega) hpi).mpr ⟨by omega, h2⟩)
    · rcases hmmem with h | ⟨j, hj, h⟩
      · exact ⟨i + 1 - p, le_refl _, by omega, by rw [h, hql]⟩
      · obtain ⟨hja, hjb⟩ := hjs j hj
        refine ⟨j, by omega, hjb, ?_⟩
        obtain ⟨x, hx⟩ := Option.isSome_iff_exists.mp (halll j hj)
        rw [h, hx]
        simp
    · intro j h1 h2
      by_cases hj0 : j = i + 1 - p
      · subst hj0
        rw [hql]
        simpa using hmle
      · exact hmbound j ((ichimoku_window_mem p i j (by omega) hpi).mpr ⟨by omega, h2⟩)
  · intro h1 i hi
    exact ichimoku_line_inner_backfill high low p i hp h1 hi

theorem C4_witness :
    (2 ≤ ([some 3, some 4] : List F).length ∧
      (ichimoku_line_inner [some 3, some 4] [some 1, some 2] 2).getD 0 (some 0) =
        (ichimoku_line_inner [some 3, some 4] [some 1, some 2] 2).getD (2 - 1) (some 0)) :=
  ⟨by decide,
    ((C4_ichimoku_line_contract [some 3, some 4] [some 1, some 2] 2).2
      (by decide) (by decide)).2 (by decide) 0 (by decide)⟩

/-- C10: inside a valid window of `ichimoku_line`, NaN values after the
window's first element are skipped by the max/min scans — the result is
defined whenever the first high/low of the window are defined — while a NaN at
the window's first element makes the result NaN. -/
theorem C10_ichimoku_nan_window (high low : List F) (p i : ℕ)
    (hp0 : p ≠ 0) (hpn : p ≤ high.length) (hpi : p ≤ i + 1) (hin : i < high.length) :
    ((high.getD (i + 1 - p) none).isSome → (low.getD (i + 1 - p) none).isSome →
      ((ichimoku_line_inner high low p).getD i (some 0)).isSome) ∧
    (high.getD (i + 1 - p) none = none ∨ low.getD (i + 1 - p) none = none →
      (ichimoku_line_inner high low p).getD i (some 0) = none) := by
  rw [ichimoku_line_inner_getD high low p i hpn hp0 hin hpi]
  constructor
  · intro hh hl
    have h1 := scan_extreme_isSome fgt (fun j => high.getD j none)
      ((List.range (p - 1)).map (fun k => i + 2 - p + k)) _ fgt_none_left hh
    have h2 := scan_extreme_isSome flt (fun j => low.getD j none)
      ((List.range (p - 1)).map (fun k => i + 2 - p + k)) _ flt_none_left hl
    obtain ⟨a, ha⟩ := Option.isSome_iff_exists.mp h1
    obtain ⟨b, hb⟩ := Option.isSome_iff_exists.mp h2
    rw [ha, hb, fadd_some, fdiv_some _ _ (by norm_num)]
    simp
  · rintro (h | h)
    · rw [h, scan_extreme_none fgt _ _ fgt_none_right, fadd_none_left, fdiv_none_left]
    · rw [h, scan_extreme_none flt _ _ flt_none_right, fadd_none_right, fdiv_none_left]

theorem C10_witness :
    (3 : ℕ) ≠ 0 ∧ 3 ≤ ([some 3, none, some 5] : List F).length ∧
      ((ichimoku_line_inner [some 3, none, some 5] [some 1, some 2, some 3] 3).getD 2
        (some 0)).isSome :=
  ⟨by decide, by decide,
    (C10_ichimoku_nan_window [some 3, none, some 5] [some 1, some 2, some 3] 3 2
      (by decide) (by decide) (by decide) (by decide)).1 (by decide) (by decide)⟩

/-! ### C3: ATR -/

lemma getD_set_self {α : Type} (l : List α) (i : ℕ) (a d : α) (h : i < l.length) :
    (l.set i a).getD i d = a := by
  rw [List.getD_eq_getElem?_getD, List.getElem?_set_self h]
  rfl

lemma getD_set_ne {α : Type} (l : List α) (i j : ℕ) (a d : α) (h : i ≠ j) :
    (l.set i a).getD j d = l.getD j d := by
  rw [List.getD_eq_getElem?_getD, List.getElem?_set_ne h, ← List.getD_eq_getElem?_getD]

/-- The value the Wilder recursion of `atr` places at position i (for a given
seed at position `p-1`): zero before the seed, the seed at `p-1`, and the
recurrence `((p-1)*prev + tr[i]) / p` afterwards. -/
def atrIdeal (tr : List F) (p : ℕ) (seed : F) : ℕ → F
  | 0 => if p = 1 then seed else some 0
  | i + 1 =>
    if i + 2 < p then some 0
    else if i + 2 = p then seed
    else fdiv (fadd (fmul (some ((p : ℚ) - 1)) (atrIdeal tr p seed i))
      (tr.getD (i + 1) none)) (some (p : ℚ))

lemma atrIdeal_step (tr : List F) (p : ℕ) (seed : F) (i : ℕ) (hi : p ≤ i) (hp : p ≠ 0) :
    atrIdeal tr p seed i =
      fdiv (fadd (fmul (some ((p : ℚ) - 1)) (atrIdeal tr p seed (i - 1)))
        (tr.getD i none)) (some (p : ℚ)) := by
  obtain ⟨s, rfl⟩ : ∃ s, i = s + 1 := ⟨i - 1, by omega⟩
  simp only [atrIdeal, Nat.add_sub_cancel]
  rw [if_neg (by omega), if_neg (by omega)]

lemma atrIdeal_at_seed (tr : List F) (p : ℕ) (seed : F) (hp : p ≠ 0) :
    atrIdeal tr p seed (p - 1) = seed := by
  obtain ⟨s, rfl⟩ : ∃ s, p = s + 1 := ⟨p - 1, by omega⟩
  simp only [Nat.add_sub_cancel]
  cases s with
  | zero => simp [atrIdeal]
  | succ t =>
    simp only [atrIdeal]
    rw [if_neg (show ¬(t + 2 < t + 1 + 1) by omega)]
    simp

lemma atrIdeal_zero_before_seed (tr : List F) (p : ℕ) (seed : F) (i : ℕ) (hi : i + 1 < p) :
    atrIdeal tr p seed i = some 0 := by
  cases i with
  | zero =>
    simp only [atrIdeal]
    rw [if_neg (by omega)]
  | succ t =>
    simp only [atrIdeal]
    rw [if_pos (by omega)]

/-- Invariant of the Wilder-smoothing loop of `atr`: after `m` iterations the
buffer holds `atrIdeal` values at positions below `p + m` and the untouched
zeros beyond. -/
lemma atr_loop_getD (tr : List F) (n p : ℕ) (seed : F) (hp : p ≠ 0) (hpn : p ≤ n) :
    ∀ m, m ≤ n - p →
      ((List.range m).foldl
        (fun res k => res.set (p + k) (fdiv (fadd (fmul (some ((p : ℚ) - 1))
          (res.getD (p + k - 1) none)) (tr.getD (p + k) none)) (some (p : ℚ))))
        ((List.replicate n (some (0 : ℚ))).set (p - 1) seed)).length = n ∧
      (∀ i, i < n →
        ((List.range m).foldl
          (fun res k => res.set (p + k) (fdiv (fadd (fmul (some ((p : ℚ) - 1))
            (res.getD (p + k - 1) none)) (tr.getD (p + k) none)) (some (p : ℚ))))
          ((List.replicate n (some (0 : ℚ))).set (p - 1) seed)).getD i (some 0) =
          if i < p + m then atrIdeal tr p seed i else some 0) := by
  intro m
  induction m with
  | zero =>
    intro _
    constructor
    · simp only [List.range_zero, List.foldl_nil, List.length_set, List.length_replicate]
    · intro i hi
      simp only [List.range_zero, List.foldl_nil]
      by_cases hseed : i = p - 1
      · subst hseed
        rw [getD_set_self _ _ _ _ (by rw [List.length_replicate]; omega),
          if_pos (by omega), atrIdeal_at_seed tr p seed hp]
      · rw [getD_set_ne _ _ _ _ _ (fun hc => hseed hc.symm),
          getD_replicate _ _ hi]
        by_cases hlt : i < p
        · rw [if_pos (by omega), atrIdeal_zero_before_seed tr p seed i (by omega)]
        · rw [if_neg (by omega)]
  | succ m ih =>
    intro hm
    obtain ⟨ihlen, ihget⟩ := ih (by omega)
    rw [List.range_succ]
    simp only [List.foldl_append, List.foldl_cons, List.foldl_nil]
    constructor
    · rw [List.length_set, ihlen]
    · intro i hi
      have hv : ((List.range m).foldl
          (fun res k => res.set (p + k) (fdiv (fadd (fmul (some ((p : ℚ) - 1))
            (res.getD (p + k - 1) none)) (tr.getD (p + k) none)) (some (p : ℚ))))
          ((List.replicate n (some (0 : ℚ))).set (p - 1) seed)).getD (p + m - 1) none =
          atrIdeal tr p seed (p + m - 1) := by
        rw [getD_default_irrel _ _ none (some 0) (by rw [ihlen]; omega),
          ihget (p + m - 1) (by omega), if_pos (by omega)]
      by_cases hieq : i = p + m
      · subst hieq
        rw [getD_set_self _ _ _ _ (by rw [ihlen]; omega), hv,
          if_pos (by omega)]
        exact (atrIdeal_step tr p seed (p + m) (by omega) hp).symm
      · rw [getD_set_ne _ _ _ _ _ (fun hc => hieq hc.symm), ihget i hi]
        by_cases hlt : i < p + m
        · rw [if_pos hlt, if_pos (by omega)]
        · rw [if_neg hlt, if_neg (by omega)]

/-- The seed value the specification prescribes at position `p-1`: the simple
mean of the first `p` true ranges (NaN if any of them is NaN). -/
def trSeedMean (high low close : List F) (p : ℕ) : F :=
  if ∀ j, j < p → ((tr_list high low close).getD j none).isSome then
    some ((∑ j in Finset.range p, ((tr_list high low close).getD j none).getD 0) / (p : ℚ))
  else none

lemma sum_tr_eq (tr : List F) (p : ℕ) (hp : p ≠ 0) :
    fdiv ((List.range p).foldl (fun acc i => fadd acc (tr.getD i none)) (some 0))
      (some (p : ℚ)) =
      if ∀ j, j < p → (tr.getD j none).isSome then
        some ((∑ j in Finset.range p, (tr.getD j none).getD 0) / (p : ℚ))
      else none := by
  rw [foldl_fadd_sum (fun i => tr.getD i none) p]
  by_cases h : ∀ j, j < p → (tr.getD j none).isSome
  · rw [if_pos h, if_pos h, fdiv_some _ _ (Nat.cast_ne_zero.mpr hp)]
  · rw [if_neg h, if_neg h, fdiv_none_left]

lemma atr_eq_loop (high low close : List F) (p : ℕ) (hn : high.length ≠ 0) (hp : p ≠ 0)
    (hpn : p ≤ high.length) :
    atr high low close p = (List.range (high.length - p)).foldl
      (fun res k => res.set (p + k) (fdiv (fadd (fmul (some ((p : ℚ) - 1))
        (res.getD (p + k - 1) none)) ((tr_list high low close).getD (p + k) none))
        (some (p : ℚ))))
      ((List.replicate high.length (some (0 : ℚ))).set (p - 1)
        (fdiv ((List.range p).foldl
          (fun acc i => fadd acc ((tr_list high low close).getD i none)) (some 0))
          (some (p : ℚ)))) := by
  simp only [atr]
  rw [if_neg (by omega), if_pos hpn]

/-- C3: `atr` returns an all-zero series when the input is empty, the period is
0, or the period exceeds the length; otherwise position `p-1` holds the simple
mean of the first `p` true ranges, every position `i ≥ p` follows Wilder's
recurrence `((p-1)*result[i-1] + tr[i]) / p`, and the positions in `[0, p-2)`
remain zero. -/
theorem C3_atr_contract (high low close : List F) (p : ℕ)
    (h1 : low.length = high.length) (h2 : close.length = high.length) :
    (high.length = 0 ∨ p = 0 ∨ high.length < p →
      atr high low close p = List.replicate high.length (some 0)) ∧
    (p ≠ 0 → p ≤ high.length →
      (atr high low close p).getD (p - 1) (some 0) = trSeedMean high low close p ∧
      (∀ i, p ≤ i → i < high.length →
        (atr high low close p).getD i (some 0) =
          fdiv (fadd (fmul (some ((p : ℚ) - 1)) ((atr high low close p).getD (i - 1) (some 0)))
            ((tr_list high low close).getD i none)) (some (p : ℚ))) ∧
      (∀ i, i + 2 < p → (atr high low close p).getD i (some 0) = some 0)) := by
  constructor
  · intro h
    by_cases hz : high.length = 0 ∨ p = 0
    · simp only [atr]
      rw [if_pos hz]
    · push_neg at hz
      simp only [atr]
      rw [if_neg (by omega), if_neg (by omega)]
  · intro hp hpn
    have hn : high.length ≠ 0 := by omega
    obtain ⟨hlen, hget⟩ := atr_loop_getD (tr_list high low close) high.length p
      (fdiv ((List.range p).foldl
        (fun acc i => fadd acc ((tr_list high low close).getD i none)) (some 0))
        (some (p : ℚ))) hp hpn (high.length - p) (le_refl _)
    refine ⟨?_, ?_, ?_⟩
    · rw [atr_eq_loop high low close p hn hp hpn, hget (p - 1) (by omega),
        if_pos (by omega),
        atrIdeal_at_seed _ p _ hp, sum_tr_eq _ p hp, trSeedMean]
    · intro i hpi hi
      rw [atr_eq_loop high low close p hn hp hpn, hget i hi, if_pos (by omega),
        hget (i - 1) (by omega), if_pos (by omega),
        atrIdeal_step _ p _ i hpi hp]
    · intro i hi
      rw [atr_eq_loop high low close p hn hp hpn, hget i (by omega),
        if_pos (by omega), atrIdeal_zero_before_seed _ p _ i (by omega)]

theorem C3_witness :
    (2 : ℕ) ≠ 0 ∧ 2 ≤ ([some 3, some 4, some 5] : List F).length ∧
      (atr [some 3, some 4, some 5] [some 1, some 2, some 3] [some 2, some 3, some 4] 2).getD
          (2 - 1) (some 0) =
        trSeedMean [some 3, some 4, some 5] [some 1, some 2, some 3] [some 2, some 3, some 4] 2 :=
  ⟨by decide, by decide,
    ((C3_atr_contract [some 3, some 4, some 5] [some 1, some 2, some 3]
      [some 2, some 3, some 4] 2 (by decide) (by decide)).2 (by decide) (by decide)).1⟩
